import Mathlib

/-!
Verification development for the AgentCLI tool-execution sandbox:
the path validator (`src/utils/path_validator.py`), the text editor tool
(`src/tools/text_editor_tool.py`), the output limiter
(`src/utils/output_limiter.py`) and the content search
(`src/tools/search_tool.py`).

Python strings are modeled as `List Char` (`PyStr`); the POSIX path
functions used by the code (`os.path.normpath`, `os.path.join`,
`os.path.relpath`, `os.path.dirname`, `os.path.basename`, `fnmatch`,
`pathlib.PurePosixPath.parts`) are translated from CPython's `posixpath`
and `fnmatch` modules, which is what the repository runs on.
-/

/-- Python `str` as a list of characters. -/
abbrev PyStr := List Char

/-- The path component `".."`. -/
def dotdot : PyStr := ['.', '.']

/-- `s.split('/')` from Python: split on every slash, keeping empty pieces.
`''.split('/') == ['']`. -/
def splitSlash : PyStr → List PyStr
  | [] => [[]]
  | c :: t =>
    if c = '/' then [] :: splitSlash t
    else
      match splitSlash t with
      | h :: r => (c :: h) :: r
      | [] => [[c]]

/-- `'/'.join(parts)` from Python. -/
def pyIntercalate : List PyStr → PyStr
  | [] => []
  | [x] => x
  | x :: rest => x ++ '/' :: pyIntercalate rest

/-- `os.path.isabs` on POSIX: the string starts with a slash. -/
def isabs (p : PyStr) : Bool := p.head? = some '/'

/-- Two-argument `posixpath.join`. -/
def pyJoin (a b : PyStr) : PyStr :=
  if isabs b then b
  else if a = [] ∨ a.getLast? = some '/' then a ++ b
  else a ++ '/' :: b

/-- The component-processing loop of `posixpath.normpath`: drop `''` and `'.'`,
resolve `'..'` against preceding components (kept at the front of a relative
path, dropped at the root of an absolute one).  `acc` is CPython's
`new_comps`, kept in order. -/
def normComps (hasRoot : Bool) : List PyStr → List PyStr → List PyStr
  | [], acc => acc
  | c :: rest, acc =>
    if c = [] ∨ c = ['.'] then normComps hasRoot rest acc
    else if c ≠ dotdot ∨ (¬hasRoot ∧ acc = []) ∨ acc.getLast? = some dotdot then
      normComps hasRoot rest (acc ++ [c])
    else if acc ≠ [] then normComps hasRoot rest acc.dropLast
    else normComps hasRoot rest acc

/-- The number of leading slashes `posixpath.normpath` preserves:
`2` for exactly two leading slashes, else `1` for an absolute path,
else `0`. -/
def initialSlashes (p : PyStr) : Nat :=
  if isabs p then
    if p.take 2 = ['/', '/'] ∧ p.take 3 ≠ ['/', '/', '/'] then 2 else 1
  else 0

/-- `posixpath.normpath`. -/
def normpath (p : PyStr) : PyStr :=
  if p = [] then ['.']
  else
    let k := initialSlashes p
    let nc := normComps (k ≠ 0) (splitSlash p) []
    let res := List.replicate k '/' ++ pyIntercalate nc
    if res = [] then ['.'] else res

/-- Index of the last `'/'` in the string, if any (`p.rfind('/')`). -/
def lastSlashIdx : PyStr → Option Nat
  | [] => none
  | c :: t =>
    match lastSlashIdx t with
    | some i => some (i + 1)
    | none => if c = '/' then some 0 else none

/-- Strip trailing slashes (`head.rstrip('/')`). -/
def rstripSlash (s : PyStr) : PyStr := (s.reverse.dropWhile (· = '/')).reverse

/-- `posixpath.dirname`. -/
def dirname (p : PyStr) : PyStr :=
  match lastSlashIdx p with
  | none => []
  | some i =>
    let head := p.take (i + 1)
    if head ≠ [] ∧ head ≠ List.replicate head.length '/' then rstripSlash head
    else head

/-- `posixpath.basename`: everything after the last slash. -/
def basename (p : PyStr) : PyStr :=
  match lastSlashIdx p with
  | none => p
  | some i => p.drop (i + 1)

/-- `posixpath.abspath` given the process working directory `cwd`. -/
def pyAbspath (cwd p : PyStr) : PyStr :=
  if isabs p then normpath p else normpath (pyJoin cwd p)

/-- Length of the longest common prefix of two lists
(`os.path.commonprefix` on a pair of sequences). -/
def commonPrefixLen : List PyStr → List PyStr → Nat
  | a :: as_, b :: bs => if a = b then commonPrefixLen as_ bs + 1 else 0
  | _, _ => 0

/-- Drop empty components (the `if x` filter in `posixpath.relpath`). -/
def filterNE (l : List PyStr) : List PyStr := l.filter (fun c => decide (c ≠ []))

/-- The non-empty slash-separated components of a path. -/
def comps (p : PyStr) : List PyStr := filterNE (splitSlash p)

/-- `os.path.join(*parts)`: fold the two-argument join over a component list. -/
def joinList : List PyStr → PyStr
  | [] => []
  | x :: rest => rest.foldl pyJoin x

/-- `posixpath.relpath path start` (with the ambient working directory `cwd`
used by its internal `abspath` calls).  The `ValueError` branch for an empty
`path` cannot arise at the call sites (the argument is a `normpath` result,
hence non-empty). -/
def relpath (cwd p start : PyStr) : PyStr :=
  let pList := filterNE (splitSlash (pyAbspath cwd p))
  let sList := filterNE (splitSlash (pyAbspath cwd start))
  let i := commonPrefixLen sList pList
  let relList := List.replicate (sList.length - i) dotdot ++ pList.drop i
  if relList = [] then ['.'] else joinList relList


/-! ### `fnmatch` (CPython's `fnmatch.translate` semantics, POSIX `normcase`) -/

/-- Index of the first `']'` in a list, if any. -/
def findClose : List Char → Option Nat
  | [] => none
  | c :: t => if c = ']' then some 0 else (findClose t).map (· + 1)

/-- Position of the `']'` closing a glob character class, for the characters
after the `'['`: a leading `'!'` and a `']'` right after it (or right after
the `'['`) are part of the class body, as in `fnmatch.translate`. -/
def classEnd (cs : List Char) : Option Nat :=
  let s1 := if cs.head? = some '!' then 1 else 0
  let s2 := if (cs.drop s1).head? = some ']' then s1 + 1 else s1
  (findClose (cs.drop s2)).map (· + s2)

/-- Membership of a character in the body of a glob class
(singletons and `a-b` ranges, compared by code point). -/
def inClass (c : Char) : List Char → Bool
  | a :: '-' :: b :: rest => (decide (a ≤ c) && decide (c ≤ b)) || inClass c rest
  | a :: rest => (a = c) || inClass c rest
  | [] => false

/-- Match one character against a glob class body, honouring `'!'` negation. -/
def classMatch (content : List Char) (c : Char) : Bool :=
  if content.head? = some '!' then !(inClass c (content.drop 1))
  else inClass c content

/-- Fuel-indexed glob matcher: `'*'` matches any run of characters (slashes
included — `fnmatch` is not pathname-aware), `'?'` any single character,
`'[...]'` a class, an unterminated `'['` is a literal. -/
def globMatchF : Nat → List Char → List Char → Bool
  | 0, _, _ => false
  | f + 1, pat, s =>
    match pat with
    | [] => s.isEmpty
    | '*' :: ps =>
      globMatchF f ps s ||
        (match s with
         | [] => false
         | _ :: t => globMatchF f ('*' :: ps) t)
    | '?' :: ps =>
      (match s with
       | [] => false
       | _ :: t => globMatchF f ps t)
    | '[' :: ps =>
      (match classEnd ps with
       | none =>
         (match s with
          | '[' :: t => globMatchF f ps t
          | _ => false)
       | some j =>
         (match s with
          | [] => false
          | c :: t => classMatch (ps.take j) c && globMatchF f (ps.drop (j + 1)) t))
    | a :: ps =>
      (match s with
       | [] => false
       | c :: t => (a = c) && globMatchF f ps t)

/-- `fnmatch.fnmatch(name, pat)`; every recursive step of the matcher makes
`|pat| + |name|` strictly smaller, so this fuel is adequate. -/
def fnmatch (name pat : PyStr) : Bool :=
  globMatchF (pat.length + name.length + 1) pat name

/-- `pathlib.PurePosixPath(p).parts`: the root (`'/'`, or `'//'` for exactly
two leading slashes) followed by the non-empty, non-`'.'` components. -/
def pathParts (p : PyStr) : List PyStr :=
  let cs := (splitSlash p).filter (fun c => decide (c ≠ []) && decide (c ≠ ['.']))
  if isabs p then
    (if p.take 2 = ['/', '/'] ∧ p.take 3 ≠ ['/', '/', '/'] then ['/', '/'] else ['/']) :: cs
  else cs


/-! ### PathValidator (`src/utils/path_validator.py`) -/

/-- The fields of a `PathValidator` instance: `repo_path` is set by the
constructor to `os.path.abspath(repo_path)` (hence absolute and normalized
in any reachable state), `ignore_patterns` is the loaded `.toolignore`
content, `allowed_folders` the extra allow-list. -/
structure PathValidator where
  repo_path : PyStr
  ignore_patterns : List PyStr
  allowed_folders : List PyStr
deriving DecidableEq

/-- `PathValidator.is_path_ignored`: a pattern may match the normalized path
itself or the join of any non-empty prefix of its `pathlib` parts. -/
def is_path_ignored (v : PathValidator) (path : PyStr) : Bool :=
  let norm_path := normpath path
  v.ignore_patterns.any fun pattern =>
    fnmatch norm_path pattern ||
      (let parts := pathParts norm_path
       (List.range parts.length).any fun i =>
         fnmatch (joinList (parts.take (i + 1))) pattern)

/-- The absolute form of an allowed folder
(`path_validator.py` lines 126-130). -/
def resolveAllowed (repo af : PyStr) : PyStr :=
  if isabs af then normpath af else normpath (pyJoin repo af)

/-- `PathValidator.is_path_allowed` (the `ValueError` guard around `relpath`
is Windows-only dead code on POSIX since the argument is never empty). -/
def is_path_allowed (cwd : PyStr) (v : PathValidator) (path : PyStr) : Bool :=
  let norm_path := normpath path
  let repo_dir := v.repo_path
  if norm_path = repo_dir ∨ norm_path = ['.'] then true
  else if dirname norm_path = [] ∨ dirname norm_path = ['.'] then true
  else if ¬ (dotdot.isPrefixOf (relpath cwd norm_path repo_dir)) then true
  else if v.allowed_folders = [] then false
  else
    v.allowed_folders.any fun af =>
      let allowed_path := resolveAllowed v.repo_path af
      decide (norm_path = allowed_path) ||
        (allowed_path ++ ['/']).isPrefixOf norm_path ||
        !(dotdot.isPrefixOf (relpath cwd norm_path allowed_path))

/-- The normalized absolute path `validate_path` computes from a raw path:
strip one leading slash (making the path repo-relative), resolve a relative
path against `repo_path`, then `normpath`. -/
def normOf (v : PathValidator) (path : PyStr) : PyStr :=
  let path1 := if isabs path then (if 1 < path.length then path.drop 1 else ['.']) else path
  let path2 := if isabs path1 then path1 else pyJoin v.repo_path path1
  normpath path2

/-- `PathValidator.validate_path`: returns `(true, normalized path)` or
`(false, error message)`. -/
def validate_path (cwd : PyStr) (v : PathValidator) (path : PyStr) : Bool × PyStr :=
  let norm_path := normOf v path
  if dotdot ∈ splitSlash norm_path then
    (false, ("Path traversal not allowed: ".data) ++ path)
  else if is_path_ignored v norm_path then
    (false, ("Path is ignored by .toolignore: ".data) ++ norm_path)
  else if ¬ is_path_allowed cwd v norm_path then
    (false, ("Path is not in allowed folders: ".data) ++ norm_path)
  else (true, norm_path)


/-! ### OutputLimiter (`src/utils/output_limiter.py`) -/

/-- Python decimal rendering of a machine integer. -/
def intStr (i : Int) : PyStr :=
  if i < 0 then '-' :: Nat.toDigits 10 i.natAbs else Nat.toDigits 10 i.toNat

/-- Python `s[:k]`: a negative bound counts from the end
(`max 0 (len s + k)` characters). -/
def pySliceTo (s : PyStr) (k : Int) : PyStr :=
  if k < 0 then s.take (s.length - k.natAbs) else s.take k.toNat

/-- The truncation note `OutputLimiter.truncate_text` appends. -/
def noteFor (maxChars : Int) (origLen : Nat) : PyStr :=
  ("\n\n[Output truncated to ".data) ++ intStr maxChars ++
    (" characters. Original length: ".data) ++ Nat.toDigits 10 origLen ++
    (" characters]".data)

/-- `OutputLimiter.truncate_text`. -/
def truncate_text (text : PyStr) (maxChars : Int) (addNote : Bool) : PyStr :=
  if (text.length : Int) ≤ maxChars then text
  else
    let truncated := pySliceTo text maxChars
    if addNote then
      let note := noteFor maxChars text.length
      pySliceTo truncated (maxChars - (note.length : Int)) ++ note
    else truncated


/-! ### Python `str.count` / `str.replace` -/

/-- Fuel-indexed scan for `str.count` with a non-empty pattern:
non-overlapping occurrences, scanning left to right. -/
def pyCountF : Nat → PyStr → PyStr → Nat
  | 0, _, _ => 0
  | f + 1, s, pat =>
    if pat.isPrefixOf s then pyCountF f (s.drop pat.length) pat + 1
    else
      match s with
      | [] => 0
      | _ :: t => pyCountF f t pat

/-- Python `s.count(pat)`; counting the empty string yields `len s + 1`. -/
def pyCount (s pat : PyStr) : Nat :=
  if pat = [] then s.length + 1 else pyCountF (s.length + 1) s pat

/-- Fuel-indexed scan for `str.replace` with a non-empty pattern. -/
def pyReplaceF : Nat → PyStr → PyStr → PyStr → PyStr
  | 0, s, _, _ => s
  | f + 1, s, old, new =>
    if old.isPrefixOf s then new ++ pyReplaceF f (s.drop old.length) old new
    else
      match s with
      | [] => []
      | c :: t => c :: pyReplaceF f t old new

/-- Python `s.replace(old, new)` (all occurrences; an empty `old` inserts
`new` around every character). -/
def pyReplace (s old new : PyStr) : PyStr :=
  if old = [] then new ++ s.flatMap (fun c => c :: new)
  else pyReplaceF (s.length + 1) s old new


/-! ### Editor state (`src/tools/text_editor_tool.py`) -/

/-- An association-list lookup with decidable key equality
(the model of both the filesystem map and the `last_edits` dict). -/
def assocLookup {α β : Type} [DecidableEq α] : List (α × β) → α → Option β
  | [], _ => none
  | (k, v) :: t, k' => if k = k' then some v else assocLookup t k'

/-- Update a key in place (Python dict assignment / file overwrite),
appending when absent. -/
def assocSet {α β : Type} [DecidableEq α] : List (α × β) → α → β → List (α × β)
  | [], k, v => [(k, v)]
  | (a, b) :: t, k, v => if a = k then (k, v) :: t else (a, b) :: assocSet t k v

/-- Delete a key (`os.remove`). -/
def assocRemove {α β : Type} [DecidableEq α] : List (α × β) → α → List (α × β)
  | [], _ => []
  | (a, b) :: t, k => if a = k then assocRemove t k else (a, b) :: assocRemove t k

/-- The filesystem: a finite map from paths to file contents. -/
abbrev FS := List (PyStr × PyStr)

/-- One slot of `TextEditorTool.last_edits`. -/
structure EditRecord where
  backup_path : PyStr
  operation : PyStr
  old_content : PyStr
  new_content : PyStr
deriving DecidableEq

/-- The mutable state `_handle_str_replace` / `_handle_create` /
`_handle_undo_edit` act on: the filesystem (which also holds the backup
files) and the in-memory `last_edits` map. -/
structure EdState where
  fs : FS
  edits : List (PyStr × EditRecord)
deriving DecidableEq

/-- `os.path.exists` on the modeled filesystem. -/
def fsExists (fs : FS) (p : PyStr) : Bool := (assocLookup fs p).isSome

/-- The backup file name `TextEditorTool._create_backup` uses:
`os.path.join(backup_dir, basename + ".bak")`, one slot per basename. -/
def backupName (backupDir p : PyStr) : PyStr :=
  pyJoin backupDir (basename p ++ (".bak".data))

/-- `TextEditorTool._create_backup`: copy the file into the backup slot
(returning `""` when the source is missing), overwriting any previous
backup of the same basename. -/
def create_backup (backupDir : PyStr) (st : EdState) (p : PyStr) : PyStr × EdState :=
  match assocLookup st.fs p with
  | none => ([], st)
  | some c =>
    let bn := backupName backupDir p
    (bn, ⟨assocSet st.fs bn c, st.edits⟩)

/-- A stand-in for the text of `difflib.unified_diff` in the confirmation
previews.  The development never relies on its value — the claims about
previews only use the `CONFIRM_EDIT` sentinel, exactly as the calling layer
does (`text_editor_tool.py` line 562). -/
def unified_diff (oldContent newContent : PyStr) : PyStr :=
  ("--- a\n+++ b\n".data) ++ oldContent ++ ("\n".data) ++ newContent

/-- A result is a pending-confirmation preview iff it starts with the
`CONFIRM_EDIT` sentinel — the test made by the confirmation layer. -/
def isPending (r : PyStr) : Bool := ("CONFIRM_EDIT".data).isPrefixOf r

/-- The `str_replace` ambiguity error, carrying the exact occurrence count. -/
def ambiguousMsg (k : Nat) : PyStr :=
  ("Error: The text to replace was found multiple times (".data) ++
    Nat.toDigits 10 k ++
    ("). Please provide more context to make the replacement unique.".data)

/-- `TextEditorTool._handle_str_replace` on a validated path.  The backup is
taken before the content is examined; with `confirm` the unified-diff
preview is returned and nothing else is written. -/
def handle_str_replace (backupDir : PyStr) (st : EdState)
    (path old_str new_str : PyStr) (confirm : Bool) : PyStr × EdState :=
  if ¬ fsExists st.fs path then
    (("Error: File \x27".data) ++ path ++ ("\x27 not found".data), st)
  else if old_str = [] then
    (("Error: old_str parameter is required".data), st)
  else
    let pr := create_backup backupDir st path
    match assocLookup pr.2.fs path with
    | none => (("Error replacing text: read failed".data), pr.2)
    | some content =>
      let k := pyCount content old_str
      if k = 0 then
        (("Error: The text to replace was not found in the file".data), pr.2)
      else if 1 < k then
        (ambiguousMsg k, pr.2)
      else
        let new_content := pyReplace content old_str new_str
        if confirm then
          (("CONFIRM_EDIT\n\nProposed changes:\n\n".data) ++
             unified_diff content new_content ++
             ("\n\nDo you want to apply these changes? (yes/no)".data), pr.2)
        else
          (("Successfully replaced text at exactly one location.".data),
           ⟨assocSet pr.2.fs path new_content,
            assocSet pr.2.edits path
              ⟨pr.1, ("str_replace".data), content, new_content⟩⟩)

/-- `TextEditorTool._handle_create` on a validated path (`os.makedirs` for
parent directories is a no-op on the flat file map). -/
def handle_create (st : EdState) (path file_text : PyStr) (confirm : Bool) :
    PyStr × EdState :=
  if fsExists st.fs path then
    (("Error: File \x27".data) ++ path ++ ("\x27 already exists".data), st)
  else if confirm then
    let preview :=
      if 1000 < file_text.length then file_text.take 1000 ++ ("...".data)
      else file_text
    (("CONFIRM_EDIT\n\nProposed file creation \x27".data) ++ path ++
       ("\x27:\n\n".data) ++ preview ++
       ("\n\nDo you want to create this file? (yes/no)".data), st)
  else
    (("Successfully created file \x27".data) ++ path ++ ("\x27.".data),
     ⟨assocSet st.fs path file_text,
      assocSet st.edits path ⟨[], ("create".data), [], file_text⟩⟩)

/-- The `undo_edit` no-history error. -/
def noHistoryMsg (path : PyStr) : PyStr :=
  ("Error: No previous edits found for \x27".data) ++ path ++ ("\x27".data)

/-- `TextEditorTool._handle_undo_edit`: for a `create` record delete the
file, otherwise restore from the backup file when it exists, else from the
stored `old_content` (which every record carries, so the
no-backup-no-content error branch is unreachable).  The `last_edits` entry
is left in place — the code has no deletion. -/
def handle_undo_edit (st : EdState) (path : PyStr) : PyStr × EdState :=
  match assocLookup st.edits path with
  | none => (noHistoryMsg path, st)
  | some rec_ =>
    if rec_.operation = ("create".data) then
      (("Successfully undid file creation by deleting \x27".data) ++ path ++
         ("\x27.".data),
       ⟨if fsExists st.fs path then assocRemove st.fs path else st.fs,
        st.edits⟩)
    else
      match assocLookup st.fs rec_.backup_path with
      | some bc =>
        if rec_.backup_path ≠ [] then
          (("Successfully undid changes to \x27".data) ++ path ++
             ("\x27 from backup.".data),
           ⟨assocSet st.fs path bc, st.edits⟩)
        else
          (("Successfully undid changes to \x27".data) ++ path ++
             ("\x27 from stored content.".data),
           ⟨assocSet st.fs path rec_.old_content, st.edits⟩)
      | none =>
        (("Successfully undid changes to \x27".data) ++ path ++
           ("\x27 from stored content.".data),
         ⟨assocSet st.fs path rec_.old_content, st.edits⟩)

/-! ### SearchTool content search (`src/tools/search_tool.py`) -/

/-- `file.readlines()` line-splitting: pieces end at `'\n'` (kept), a final
piece without a newline is kept too. -/
def readlinesAux : PyStr → PyStr → List PyStr
  | [], acc => if acc = [] then [] else [acc]
  | c :: t, acc =>
    if c = '\n' then (acc ++ ['\n']) :: readlinesAux t []
    else readlinesAux t (acc ++ [c])

/-- `file.readlines()`. -/
def readlines (s : PyStr) : List PyStr := readlinesAux s []

/-- Python `str.rstrip()` (ASCII whitespace). -/
def rstrip (s : PyStr) : PyStr :=
  (s.reverse.dropWhile
    (fun c => c = ' ' ∨ c = '\t' ∨ c = '\n' ∨ c = '\r' ∨ c = '\x0b' ∨ c = '\x0c')).reverse

/-- Substring test: `re.compile(re.escape(query)).search(line)` succeeds iff
the query occurs literally in the line. -/
def containsSub (s sub : PyStr) : Bool :=
  sub.isPrefixOf s ||
    (match s with
     | [] => false
     | _ :: t => containsSub t sub)

/-- `str.lower()` for the `re.IGNORECASE` flag. -/
def lowerStr (s : PyStr) : PyStr := s.map Char.toLower

/-- One context line of a content match. -/
structure ContextLine where
  line_number : Nat
  content : PyStr
  is_match : Bool

/-- One content match: matched line plus two lines of context either side. -/
structure ContentMatch where
  line_number : Nat
  content : PyStr
  context : List ContextLine

/-- `SearchTool._search_file_content` on the file's content. -/
def search_file_content (query content : PyStr) (case_sensitive : Bool) :
    List ContentMatch :=
  let lines := readlines content
  let hit := fun (line : PyStr) =>
    if case_sensitive then containsSub line query
    else containsSub (lowerStr line) (lowerStr query)
  (List.range lines.length).filterMap fun i =>
    if hit (lines.getD i []) then
      let a := i - 2
      let b := min lines.length (i + 3)
      some ⟨i + 1, rstrip (lines.getD i []),
            (List.range (b - a)).map fun o =>
              ⟨a + o + 1, rstrip (lines.getD (a + o) []), a + o = i⟩⟩
    else none

/-- The loop of `OutputLimiter.limit_content_matches`: cap each file at
`maxPerFile`, accumulate the total, and stop after the file that reaches
`maxTotal` (that file's matches are kept in full, so the total can
overshoot). -/
def lcmLoop {α β : Type} (maxTotal maxPerFile : Nat) :
    List (α × List β) → Nat → List (α × List β)
  | [], _ => []
  | (f, ms) :: rest, total =>
    let fm := ms.take maxPerFile
    (f, fm) ::
      (if maxTotal ≤ total + fm.length then []
       else lcmLoop maxTotal maxPerFile rest (total + fm.length))

/-- `OutputLimiter.limit_content_matches`. -/
def limit_content_matches {α β : Type} (results : List (α × List β))
    (maxTotal maxPerFile : Nat) : List (α × List β) :=
  lcmLoop maxTotal maxPerFile results 0

/-- The walk of `SearchTool._search_content_in_files` over the file list
produced by `path_validator.get_all_files`: skip unreadable files, files
over 1 MiB and files with a NUL in their first 1024 bytes; cap each file's
matches at `maxPerFile`; stop accumulating once the running total reaches
`maxResults`; finally apply `limit_content_matches`. -/
def searchLoop (fs : FS) (query : PyStr) (case_sensitive : Bool)
    (maxResults maxPerFile : Nat) :
    List PyStr → List (PyStr × List ContentMatch) → Nat →
      List (PyStr × List ContentMatch)
  | [], acc, _ => limit_content_matches acc maxResults maxPerFile
  | f :: rest, acc, total =>
    match assocLookup fs f with
    | none => searchLoop fs query case_sensitive maxResults maxPerFile rest acc total
    | some c =>
      if 1048576 < c.length then
        searchLoop fs query case_sensitive maxResults maxPerFile rest acc total
      else if '\x00' ∈ c.take 1024 then
        searchLoop fs query case_sensitive maxResults maxPerFile rest acc total
      else
        let fm := search_file_content query c case_sensitive
        if fm.isEmpty then
          searchLoop fs query case_sensitive maxResults maxPerFile rest acc total
        else
          let fm2 := fm.take maxPerFile
          if maxResults ≤ total + fm2.length then
            limit_content_matches (acc ++ [(f, fm2)]) maxResults maxPerFile
          else
            searchLoop fs query case_sensitive maxResults maxPerFile rest
              (acc ++ [(f, fm2)]) (total + fm2.length)

/-- `SearchTool._search_content_in_files`, parameterized by the file list
returned by `path_validator.get_all_files(directory)` and the filesystem
contents. -/
def search_content_in_files (fs : FS) (allFiles : List PyStr) (query : PyStr)
    (case_sensitive : Bool) (maxResults maxPerFile : Nat) :
    List (PyStr × List ContentMatch) :=
  searchLoop fs query case_sensitive maxResults maxPerFile allFiles [] 0

/-- Total number of matches in a content-search result. -/
def totalMatches {α β : Type} (l : List (α × List β)) : Nat :=
  (l.map (fun e => e.2.length)).sum

/-- Modelled from the spec's words for C3 (the refinement side): patterns
matched against the path taken relative to repoRoot and against each of its
prefixes. -/
def specIgnoredRelative (cwd : PyStr) (v : PathValidator) (p : PyStr) :
    Bool :=
  let rel := relpath cwd (normOf v p) v.repo_path
  v.ignore_patterns.any fun pattern =>
    fnmatch rel pattern ||
      (let parts := pathParts rel
       (List.range parts.length).any fun i =>
         fnmatch (joinList (parts.take (i + 1))) pattern)

/-! ### Sanity checks on the embedding (concrete evaluations) -/

example : splitSlash ("a/b".data) = [("a".data), ("b".data)] := by decide

example : normpath ("/repo/../x".data) = ("/x".data) := by decide

example : normpath ("r/../../x".data) = ("../x".data) := by decide

example : relpath ("/c".data) ("/repo/src/a.txt".data) ("/repo".data) = ("src/a.txt".data) := by decide

example : dirname ("/a/b".data) = ("/a".data) := by decide

example : basename ("a/b".data) = ("b".data) := by decide

example : fnmatch ("/repo/debug.log".data) ("*.log".data) = true := by decide

example : fnmatch ("src/a.txt".data) ("src/*".data) = true := by decide

example : fnmatch ("/repo/src/a.txt".data) ("src/*".data) = false := by decide

example : fnmatch ("ab".data) ("a[b-d]".data) = true := by decide

example : pathParts ("/repo/src/a.txt".data)
    = [("/".data), ("repo".data), ("src".data), ("a.txt".data)] := by decide

example :
    validate_path ("/c".data) ⟨("/repo".data), [], []⟩ ("src/a.txt".data)
      = (true, ("/repo/src/a.txt".data)) := by decide

example :
    (validate_path ("/c".data) ⟨("/repo".data), [("*.log".data)], []⟩ ("debug.log".data)).1
      = false := by decide

example :
    validate_path ("/c".data) ⟨("r".data), [], []⟩ ("../../x".data)
      = (false, ("Path traversal not allowed: ../../x".data)) := by decide

example :
    (validate_path ("/c".data) ⟨("/repo".data), [], []⟩ ("../x".data)).2
      = ("Path is not in allowed folders: /x".data) := by decide

example : truncate_text ("abc".data) 10 true = ("abc".data) := by decide

example :
    truncate_text ("aaaaaaaaaab".data) 10 false = ("aaaaaaaaaa".data) := by decide

example : pyCount ("abab".data) ("ab".data) = 2 := by decide

example : pyCount ("aaa".data) ("aa".data) = 1 := by decide

example : pyCount ("".data) ("".data) = 1 := by decide

example : pyReplace ("abab".data) ("ab".data) ("c".data) = ("cc".data) := by decide

example :
    (search_file_content ("x".data) ("x\nyx\nz\n".data) true).length = 2 := by decide

example :
    totalMatches
      (search_content_in_files [(("f".data), ("x\nx\n".data))] [("f".data)]
        ("x".data) true 1 2) = 2 := by decide

/-! ### Association-map laws -/

theorem assocLookup_set_self {α β : Type} [DecidableEq α]
    (m : List (α × β)) (k : α) (v : β) :
    assocLookup (assocSet m k v) k = some v := by
  induction m with
  | nil => simp [assocSet, assocLookup]
  | cons h t ih =>
    obtain ⟨a, b⟩ := h
    by_cases hak : a = k
    · simp [assocSet, hak, assocLookup]
    · simp [assocSet, hak, assocLookup, ih]

theorem assocLookup_set_ne {α β : Type} [DecidableEq α]
    (m : List (α × β)) (k k' : α) (v : β) (h : k' ≠ k) :
    assocLookup (assocSet m k v) k' = assocLookup m k' := by
  have hkk : ¬ k = k' := fun he => h he.symm
  induction m with
  | nil => simp [assocSet, assocLookup, hkk]
  | cons hd t ih =>
    obtain ⟨a, b⟩ := hd
    by_cases hak : a = k
    · subst hak
      simp [assocSet, assocLookup, hkk]
    · simp [assocSet, hak, assocLookup, ih]

theorem assocLookup_remove_self {α β : Type} [DecidableEq α]
    (m : List (α × β)) (k : α) :
    assocLookup (assocRemove m k) k = none := by
  induction m with
  | nil => simp [assocRemove, assocLookup]
  | cons hd t ih =>
    obtain ⟨a, b⟩ := hd
    by_cases hak : a = k
    · simp [assocRemove, hak, ih]
    · simp [assocRemove, hak, assocLookup, ih]

/-! ### Facts about `basename` and the backup slot -/

theorem lastSlashIdx_eq_none_of_not_mem {p : PyStr} (h : '/' ∉ p) :
    lastSlashIdx p = none := by
  induction p with
  | nil => rfl
  | cons c t ih =>
    have hc : c ≠ '/' := fun he => h (by simp [he])
    have ht : '/' ∉ t := fun hm => h (List.mem_cons_of_mem _ hm)
    simp [lastSlashIdx, ih ht, hc]

theorem not_slash_mem_of_lastSlashIdx_none {p : PyStr}
    (h : lastSlashIdx p = none) : '/' ∉ p := by
  induction p with
  | nil => simp
  | cons c t ih =>
    intro hm
    unfold lastSlashIdx at h
    cases hlt : lastSlashIdx t with
    | some i => rw [hlt] at h; exact Option.noConfusion h
    | none =>
      rw [hlt] at h
      by_cases hc : c = '/'
      · rw [if_pos hc] at h; exact Option.noConfusion h
      · rw [if_neg hc] at h
        rcases List.mem_cons.mp hm with he | hm'
        · exact hc he.symm
        · exact ih hlt hm'

theorem basename_eq_self_of_no_slash {p : PyStr} (h : '/' ∉ p) :
    basename p = p := by
  simp [basename, lastSlashIdx_eq_none_of_not_mem h]

theorem basename_no_slash (p : PyStr) : '/' ∉ basename p := by
  induction p with
  | nil => simp [basename, lastSlashIdx]
  | cons c t ih =>
    unfold basename lastSlashIdx
    cases hlt : lastSlashIdx t with
    | some i =>
      have : basename t = t.drop (i + 1) := by simp [basename, hlt]
      simpa [this] using ih
    | none =>
      by_cases hc : c = '/'
      · simpa [hc] using not_slash_mem_of_lastSlashIdx_none hlt
      · simp only [if_neg hc]
        intro hm
        rcases List.mem_cons.mp hm with he | hm'
        · exact hc he.symm
        · exact not_slash_mem_of_lastSlashIdx_none hlt hm'

theorem lastSlash_append_cons {B : PyStr} (h : '/' ∉ B) :
    ∀ X : PyStr, ∃ i, lastSlashIdx (X ++ '/' :: B) = some i ∧
      (X ++ '/' :: B).drop (i + 1) = B := by
  intro X
  induction X with
  | nil =>
    refine ⟨0, ?_, by simp⟩
    simp [lastSlashIdx, lastSlashIdx_eq_none_of_not_mem h]
  | cons c X' ih =>
    obtain ⟨i, hi, hd⟩ := ih
    refine ⟨i + 1, ?_, ?_⟩
    · simp [lastSlashIdx, hi]
    · simpa using hd

theorem basename_append_cons {B : PyStr} (X : PyStr) (h : '/' ∉ B) :
    basename (X ++ '/' :: B) = B := by
  obtain ⟨i, hi, hd⟩ := lastSlash_append_cons h X
  simp [basename, hi, hd]

theorem getLast?_eq_some_append {α : Type} {l : List α} {a : α}
    (h : l.getLast? = some a) : ∃ t, l = t ++ [a] := by
  induction l with
  | nil => exact absurd h (by simp)
  | cons c t ih =>
    cases t with
    | nil =>
      refine ⟨[], ?_⟩
      simp only [List.getLast?_singleton] at h
      simp [Option.some_inj.mp h]
    | cons d t' =>
      rw [List.getLast?_cons_cons] at h
      obtain ⟨u, hu⟩ := ih h
      exact ⟨c :: u, by simp [hu]⟩

theorem basename_backupName (bdir p : PyStr) :
    basename (backupName bdir p) = basename p ++ (".bak".data) := by
  have hB : '/' ∉ basename p ++ (".bak".data) := by
    intro hm
    rcases List.mem_append.mp hm with h1 | h2
    · exact basename_no_slash p h1
    · simp at h2
  have hnabs : isabs (basename p ++ (".bak".data)) = false := by
    cases hb : basename p with
    | nil => simp [hb, isabs]
    | cons c t =>
      have hc : c ≠ '/' := by
        intro he
        exact basename_no_slash p (by simp [hb, he])
      simp [hb, isabs, hc]
  unfold backupName pyJoin
  rw [hnabs]
  simp only [Bool.false_eq_true, if_false]
  by_cases h0 : bdir = [] ∨ bdir.getLast? = some '/'
  · rw [if_pos h0]
    rcases h0 with h0 | h0
    · subst h0
      simpa using basename_eq_self_of_no_slash hB
    · obtain ⟨t, ht⟩ := getLast?_eq_some_append h0
      subst ht
      simpa using basename_append_cons t hB
  · rw [if_neg h0]
    exact basename_append_cons bdir hB

theorem backupName_ne (bdir p : PyStr) : backupName bdir p ≠ p := by
  intro he
  have h1 := basename_backupName bdir p
  rw [he] at h1
  have := congrArg List.length h1
  simp at this

theorem backupName_ne_nil (bdir p : PyStr) : backupName bdir p ≠ [] := by
  intro he
  have h1 := basename_backupName bdir p
  rw [he] at h1
  have h2 : ([] : PyStr) = basename p ++ (".bak".data) := h1
  have := congrArg List.length h2
  simp at this

/-! ### Literal-head facts for message discrimination -/

theorem head?_append_of_head? {l : PyStr} (r : PyStr) {c : Char}
    (h : l.head? = some c) : (l ++ r).head? = some c := by
  cases l with
  | nil => simp at h
  | cons a t => simpa using h

theorem ne_of_head?_ne {l r : PyStr} (h : l.head? ≠ r.head?) : l ≠ r :=
  fun he => h (he ▸ rfl)

theorem ne_noHistoryMsg (c : Char) {l : PyStr} (hc : l.head? = some c)
    (hne : c ≠ 'E') (path r : PyStr) :
    (l ++ path) ++ r ≠ noHistoryMsg path := by
  have h1 : ((l ++ path) ++ r).head? = some c :=
    head?_append_of_head? r (head?_append_of_head? path hc)
  have h2 : (noHistoryMsg path).head? = some 'E' :=
    head?_append_of_head? _ (head?_append_of_head? path (by decide))
  intro he
  rw [he, h2] at h1
  exact hne (Option.some_inj.mp h1.symm)

theorem isPrefixOf_append_of_isPrefixOf {a : PyStr} :
    ∀ {l : PyStr}, a.isPrefixOf l = true → ∀ r, a.isPrefixOf (l ++ r) = true := by
  induction a with
  | nil => intro l _ r; simp [List.isPrefixOf]
  | cons c t ih =>
    intro l h r
    cases l with
    | nil => simp [List.isPrefixOf] at h
    | cons d l' =>
      simp only [List.isPrefixOf, Bool.and_eq_true, beq_iff_eq] at h ⊢
      exact ⟨h.1, ih h.2 r⟩

/-! ### Normal forms for the editor handlers -/

theorem lookup_after_backup (bdir : PyStr) {st : EdState} {path content : PyStr}
    (hex : assocLookup st.fs path = some content) :
    assocLookup (assocSet st.fs (backupName bdir path) content) path
      = some content := by
  rw [assocLookup_set_ne _ _ _ _ (backupName_ne bdir path).symm]
  exact hex

theorem handle_str_replace_result (bdir : PyStr) (st : EdState)
    (path old_str new_str : PyStr) (confirm : Bool) (content : PyStr)
    (hex : assocLookup st.fs path = some content) (hne : old_str ≠ []) :
    handle_str_replace bdir st path old_str new_str confirm =
      (if pyCount content old_str = 0 then
         (("Error: The text to replace was not found in the file".data),
          ⟨assocSet st.fs (backupName bdir path) content, st.edits⟩)
       else if 1 < pyCount content old_str then
         (ambiguousMsg (pyCount content old_str),
          ⟨assocSet st.fs (backupName bdir path) content, st.edits⟩)
       else if confirm then
         (("CONFIRM_EDIT\n\nProposed changes:\n\n".data) ++
            unified_diff content (pyReplace content old_str new_str) ++
            ("\n\nDo you want to apply these changes? (yes/no)".data),
          ⟨assocSet st.fs (backupName bdir path) content, st.edits⟩)
       else
         (("Successfully replaced text at exactly one location.".data),
          ⟨assocSet (assocSet st.fs (backupName bdir path) content) path
             (pyReplace content old_str new_str),
           assocSet st.edits path
             ⟨backupName bdir path, ("str_replace".data), content,
              pyReplace content old_str new_str⟩⟩)) := by
  have hfe : fsExists st.fs path = true := by simp [fsExists, hex]
  simp only [handle_str_replace, hfe, hne, create_backup, hex,
    lookup_after_backup bdir hex, not_true_eq_false, Bool.false_eq_true,
    if_false, ite_false]

/-- Claim C10: on an existing file, `str_replace` with an empty `oldText`
fails with the `old_str parameter is required` error (it is not treated as a
text occurring more than once), and the state — in particular the target
file's content — is unchanged. -/
theorem str_replace_requires_old_str (bdir : PyStr) (st : EdState)
    (path new_str : PyStr) (confirm : Bool) (content : PyStr)
    (hex : assocLookup st.fs path = some content) :
    handle_str_replace bdir st path [] new_str confirm
        = (("Error: old_str parameter is required".data), st) ∧
      assocLookup (handle_str_replace bdir st path [] new_str confirm).2.fs path
        = some content := by
  have hfe : fsExists st.fs path = true := by simp [fsExists, hex]
  have h1 : handle_str_replace bdir st path [] new_str confirm
      = (("Error: old_str parameter is required".data), st) := by
    simp [handle_str_replace, hfe]
  exact ⟨h1, by rw [h1]; exact hex⟩

/-- Witness for C10 at a concrete state. -/
theorem str_replace_requires_old_str_w :
    handle_str_replace ("/b".data) ⟨[(("f".data), ("ab".data))], []⟩ ("f".data) []
        ("z".data) true
        = (("Error: old_str parameter is required".data),
           ⟨[(("f".data), ("ab".data))], []⟩) ∧
      assocLookup (handle_str_replace ("/b".data) ⟨[(("f".data), ("ab".data))], []⟩
          ("f".data) [] ("z".data) true).2.fs ("f".data) = some ("ab".data) :=
  str_replace_requires_old_str ("/b".data) ⟨[(("f".data), ("ab".data))], []⟩
    ("f".data) ("z".data) true ("ab".data) (by decide)

/-- Counterexample to claim C4 as stated: in an existing file with empty
content, an empty `oldText` occurs exactly once in Python's counting
(`''.count('') == 1`), yet `str_replace` neither succeeds nor returns a
pending preview — it fails with the `old_str parameter is required` error. -/
theorem str_replace_empty_old_cex :
    pyCount ("".data) ("".data) = 1 ∧
      (handle_str_replace ("/b".data) ⟨[(("f".data), ("".data))], []⟩ ("f".data) []
          ("z".data) false).1 = ("Error: old_str parameter is required".data) ∧
      isPending (handle_str_replace ("/b".data) ⟨[(("f".data), ("".data))], []⟩
          ("f".data) [] ("z".data) false).1 = false ∧
      (handle_str_replace ("/b".data) ⟨[(("f".data), ("".data))], []⟩ ("f".data) []
          ("z".data) false).1
        ≠ ("Successfully replaced text at exactly one location.".data) := by
  refine ⟨by decide, by decide, by decide, by decide⟩

/-- Claim C4, amended: for a non-empty `oldText` occurring `k` times in an
existing file, `str_replace` yields: `k = 0` the not-found error; `k = 1`
a pending-confirmation preview when confirmation is requested, otherwise a
committed replacement; `k > 1` the ambiguity error reporting the exact
count `k`. -/
theorem str_replace_trichotomy (bdir : PyStr) (st : EdState)
    (path old_str new_str : PyStr) (confirm : Bool) (content : PyStr)
    (hex : assocLookup st.fs path = some content) (hne : old_str ≠ []) :
    (pyCount content old_str = 0 →
      (handle_str_replace bdir st path old_str new_str confirm).1
          = ("Error: The text to replace was not found in the file".data) ∧
        assocLookup (handle_str_replace bdir st path old_str new_str
            confirm).2.fs path = some content) ∧
    (pyCount content old_str = 1 → confirm = true →
      isPending (handle_str_replace bdir st path old_str new_str confirm).1
          = true ∧
        assocLookup (handle_str_replace bdir st path old_str new_str
            confirm).2.fs path = some content) ∧
    (pyCount content old_str = 1 → confirm = false →
      (handle_str_replace bdir st path old_str new_str confirm).1
          = ("Successfully replaced text at exactly one location.".data) ∧
        assocLookup (handle_str_replace bdir st path old_str new_str
            confirm).2.fs path
          = some (pyReplace content old_str new_str)) ∧
    (1 < pyCount content old_str →
      (handle_str_replace bdir st path old_str new_str confirm).1
          = ambiguousMsg (pyCount content old_str) ∧
        assocLookup (handle_str_replace bdir st path old_str new_str
            confirm).2.fs path = some content) := by
  have hp : (("CONFIRM_EDIT".data)).isPrefixOf
      (("CONFIRM_EDIT\n\nProposed changes:\n\n".data)) = true := by decide
  rw [handle_str_replace_result bdir st path old_str new_str confirm content
    hex hne]
  refine ⟨fun hk => ?_, fun hk hc => ?_, fun hk hc => ?_, fun hk => ?_⟩
  · rw [if_pos hk]
    exact ⟨rfl, lookup_after_backup bdir hex⟩
  · rw [if_neg (show ¬ pyCount content old_str = 0 by omega),
      if_neg (show ¬ 1 < pyCount content old_str by omega), hc,
      if_pos rfl]
    refine ⟨?_, lookup_after_backup bdir hex⟩
    simp only [isPending]
    exact isPrefixOf_append_of_isPrefixOf hp _
  · rw [if_neg (show ¬ pyCount content old_str = 0 by omega),
      if_neg (show ¬ 1 < pyCount content old_str by omega), hc,
      if_neg (by decide)]
    exact ⟨rfl, assocLookup_set_self _ _ _⟩
  · rw [if_neg (show ¬ pyCount content old_str = 0 by omega), if_pos hk]
    exact ⟨rfl, lookup_after_backup bdir hex⟩

/-- Witness for C4 at a concrete input (`k = 1`, committed). -/
theorem str_replace_trichotomy_w :
    (handle_str_replace ("/b".data) ⟨[(("f".data), ("ab".data))], []⟩ ("f".data)
        ("a".data) ("z".data) false).1
      = ("Successfully replaced text at exactly one location.".data) ∧
    assocLookup (handle_str_replace ("/b".data) ⟨[(("f".data), ("ab".data))], []⟩
        ("f".data) ("a".data) ("z".data) false).2.fs ("f".data)
      = some (pyReplace ("ab".data) ("a".data) ("z".data)) :=
  (str_replace_trichotomy ("/b".data) ⟨[(("f".data), ("ab".data))], []⟩ ("f".data)
    ("a".data) ("z".data) false ("ab".data) (by decide) (by decide)).2.2.1
    (by decide) rfl

/-- Counterexample to claim C5 as stated: a confirmation-requested
`str_replace` whose `oldText` matches exactly once does return a pending
preview and leaves the target file and the edit map alone, but it mutates
the backup store — the pre-image copy is written before the confirmation
check. -/
theorem str_replace_preview_backup_cex :
    pyCount ("ab".data) ("a".data) = 1 ∧
      isPending (handle_str_replace ("/b".data) ⟨[(("f".data), ("ab".data))], []⟩
          ("f".data) ("a".data) ("z".data) true).1 = true ∧
      assocLookup ([(("f".data), ("ab".data))] : FS) ("/b/f.bak".data) = none ∧
      assocLookup (handle_str_replace ("/b".data) ⟨[(("f".data), ("ab".data))], []⟩
          ("f".data) ("a".data) ("z".data) true).2.fs ("/b/f.bak".data)
        = some ("ab".data) := by
  refine ⟨by decide, by decide, by decide, by decide⟩

/-- Claim C5, amended: on a preview (`confirm = true`, single match) and on
any rejected `str_replace` (match count `0` or `> 1`), the target file and
the EditRecord map are unchanged and no replacement is committed, but the
backup store is updated: a copy of the current content is written to
`backupDir/basename.bak` before the match count is examined. -/
theorem str_replace_no_commit_frame (bdir : PyStr) (st : EdState)
    (path old_str new_str : PyStr) (confirm : Bool) (content : PyStr)
    (hex : assocLookup st.fs path = some content) (hne : old_str ≠ [])
    (hrej : pyCount content old_str ≠ 1 ∨ confirm = true) :
    (handle_str_replace bdir st path old_str new_str confirm).2.fs
        = assocSet st.fs (backupName bdir path) content ∧
      (handle_str_replace bdir st path old_str new_str confirm).2.edits
        = st.edits ∧
      assocLookup (handle_str_replace bdir st path old_str new_str
          confirm).2.fs path = some content ∧
      (pyCount content old_str = 1 →
        isPending (handle_str_replace bdir st path old_str new_str
            confirm).1 = true) := by
  have hp : (("CONFIRM_EDIT".data)).isPrefixOf
      (("CONFIRM_EDIT\n\nProposed changes:\n\n".data)) = true := by decide
  rw [handle_str_replace_result bdir st path old_str new_str confirm content
    hex hne]
  by_cases h0 : pyCount content old_str = 0
  · rw [if_pos h0]
    exact ⟨rfl, rfl, lookup_after_backup bdir hex, fun h1 => by omega⟩
  · by_cases h2 : 1 < pyCount content old_str
    · rw [if_neg h0, if_pos h2]
      exact ⟨rfl, rfl, lookup_after_backup bdir hex, fun h1 => by omega⟩
    · have hk : pyCount content old_str = 1 := by omega
      have hc : confirm = true := by
        rcases hrej with h | h
        · exact absurd hk h
        · exact h
      rw [if_neg h0, if_neg h2, hc, if_pos rfl]
      refine ⟨rfl, rfl, lookup_after_backup bdir hex, fun _ => ?_⟩
      simp only [isPending]
      exact isPrefixOf_append_of_isPrefixOf hp _

/-- Witness for C5 at a concrete input (single match, `confirm = true`). -/
theorem str_replace_no_commit_frame_w :
    (handle_str_replace ("/b".data) ⟨[(("f".data), ("ab".data))], []⟩ ("f".data)
        ("a".data) ("z".data) true).2.fs
      = assocSet ([(("f".data), ("ab".data))] : FS)
          (backupName ("/b".data) ("f".data)) ("ab".data) ∧
    (handle_str_replace ("/b".data) ⟨[(("f".data), ("ab".data))], []⟩ ("f".data)
        ("a".data) ("z".data) true).2.edits = [] ∧
    assocLookup (handle_str_replace ("/b".data) ⟨[(("f".data), ("ab".data))], []⟩
        ("f".data) ("a".data) ("z".data) true).2.fs ("f".data) = some ("ab".data) ∧
    (pyCount ("ab".data) ("a".data) = 1 →
      isPending (handle_str_replace ("/b".data) ⟨[(("f".data), ("ab".data))], []⟩
          ("f".data) ("a".data) ("z".data) true).1 = true) :=
  str_replace_no_commit_frame ("/b".data) ⟨[(("f".data), ("ab".data))], []⟩
    ("f".data) ("a".data) ("z".data) true ("ab".data) (by decide) (by decide)
    (Or.inr rfl)

/-- Claim C6: committed `create` followed by `undo_edit` removes the created
file; committed `str_replace` followed by `undo_edit` restores the pre-edit
content byte-identically. -/
theorem create_str_replace_undo_roundtrip :
    (∀ (st : EdState) (path file_text : PyStr),
      assocLookup st.fs path = none →
      assocLookup (handle_undo_edit
          (handle_create st path file_text false).2 path).2.fs path = none) ∧
    (∀ (bdir : PyStr) (st : EdState) (path old_str new_str content : PyStr),
      assocLookup st.fs path = some content → old_str ≠ [] →
      pyCount content old_str = 1 →
      assocLookup (handle_undo_edit
          (handle_str_replace bdir st path old_str new_str false).2
          path).2.fs path = some content) := by
  constructor
  · intro st path file_text hnone
    have hfe : fsExists st.fs path = false := by simp [fsExists, hnone]
    have hc : handle_create st path file_text false
        = (("Successfully created file \x27".data) ++ path ++ ("\x27.".data),
           ⟨assocSet st.fs path file_text,
            assocSet st.edits path ⟨[], ("create".data), [], file_text⟩⟩) := by
      simp [handle_create, hfe]
    rw [hc]
    have hrec : assocLookup
        (assocSet st.edits path ⟨[], ("create".data), [], file_text⟩) path
        = some ⟨[], ("create".data), [], file_text⟩ := assocLookup_set_self _ _ _
    have hfex : fsExists (assocSet st.fs path file_text) path = true := by
      simp [fsExists, assocLookup_set_self]
    simp only [handle_undo_edit, hrec, if_pos rfl, hfex, if_pos]
    exact assocLookup_remove_self _ _
  · intro bdir st path old_str new_str content hex hne hk
    rw [handle_str_replace_result bdir st path old_str new_str false content
      hex hne,
      if_neg (show ¬ pyCount content old_str = 0 by omega),
      if_neg (show ¬ 1 < pyCount content old_str by omega),
      if_neg (by decide : ¬ (false = true))]
    have hrec : assocLookup
        (assocSet st.edits path
          ⟨backupName bdir path, ("str_replace".data), content,
           pyReplace content old_str new_str⟩) path
        = some ⟨backupName bdir path, ("str_replace".data), content,
            pyReplace content old_str new_str⟩ := assocLookup_set_self _ _ _
    have hop : ¬ ((("str_replace".data) : PyStr) = ("create".data)) := by decide
    have hbk : assocLookup
        (assocSet (assocSet st.fs (backupName bdir path) content) path
          (pyReplace content old_str new_str)) (backupName bdir path)
        = some content := by
      rw [assocLookup_set_ne _ _ _ _ (backupName_ne bdir path)]
      exact assocLookup_set_self _ _ _
    simp only [handle_undo_edit, hrec, if_neg hop, hbk,
      if_pos (backupName_ne_nil bdir path)]
    exact assocLookup_set_self _ _ _

/-- Witness for C6 at concrete states. -/
theorem create_str_replace_undo_roundtrip_w :
    assocLookup (handle_undo_edit
        (handle_create ⟨[], []⟩ ("f".data) ("hi".data) false).2 ("f".data)).2.fs
        ("f".data) = none ∧
    assocLookup (handle_undo_edit
        (handle_str_replace ("/b".data) ⟨[(("f".data), ("ab".data))], []⟩ ("f".data)
          ("a".data) ("z".data) false).2 ("f".data)).2.fs ("f".data)
      = some ("ab".data) :=
  ⟨create_str_replace_undo_roundtrip.1 ⟨[], []⟩ ("f".data) ("hi".data)
      (by decide),
   create_str_replace_undo_roundtrip.2 ("/b".data) ⟨[(("f".data), ("ab".data))], []⟩
      ("f".data) ("a".data) ("z".data) ("ab".data) (by decide) (by decide)
      (by decide)⟩

/-- Counterexample to claim C7 as stated: after a committed `create` and a
successful `undo_edit`, the path's EditRecord still exists, and a second
`undo_edit` on the same path does not fail with the no-history error — it
reports success again. -/
theorem undo_edit_not_consumed_cex :
    (assocLookup (handle_undo_edit
        (handle_create ⟨[], []⟩ ("f".data) ("hi".data) false).2
        ("f".data)).2.edits ("f".data)).isSome = true ∧
    (handle_undo_edit (handle_undo_edit
        (handle_create ⟨[], []⟩ ("f".data) ("hi".data) false).2 ("f".data)).2
        ("f".data)).1 ≠ noHistoryMsg ("f".data) ∧
    (handle_undo_edit (handle_undo_edit
        (handle_create ⟨[], []⟩ ("f".data) ("hi".data) false).2 ("f".data)).2
        ("f".data)).1
      = ("Successfully undid file creation by deleting \x27".data) ++
          ("f".data) ++ ("\x27.".data) := by
  refine ⟨by decide, by decide, by decide⟩

/-- Claim C7, amended: `undo_edit` does not consume the EditRecord — after a
successful undo the record for the path is still present (the edit map is
untouched), and a second `undo_edit` on the same path does not fail with the
no-history error. -/
theorem undo_edit_keeps_record (st : EdState) (path : PyStr)
    (rec_ : EditRecord) (h : assocLookup st.edits path = some rec_) :
    (handle_undo_edit st path).2.edits = st.edits ∧
      (handle_undo_edit st path).1 ≠ noHistoryMsg path := by
  simp only [handle_undo_edit, h]
  by_cases hop : rec_.operation = ("create".data)
  · rw [if_pos hop]
    exact ⟨rfl, ne_noHistoryMsg 'S' (by decide) (by decide) path _⟩
  · rw [if_neg hop]
    cases hbk : assocLookup st.fs rec_.backup_path with
    | some bc =>
      dsimp only
      by_cases hbp : rec_.backup_path ≠ []
      · rw [if_pos hbp]
        exact ⟨rfl, ne_noHistoryMsg 'S' (by decide) (by decide) path _⟩
      · rw [if_neg hbp]
        exact ⟨rfl, ne_noHistoryMsg 'S' (by decide) (by decide) path _⟩
    | none =>
      exact ⟨rfl, ne_noHistoryMsg 'S' (by decide) (by decide) path _⟩

/-- Witness for C7 at a concrete state. -/
theorem undo_edit_keeps_record_w :
    (handle_undo_edit
        ⟨[(("f".data), ("hi".data))],
         [(("f".data), ⟨[], ("create".data), [], ("hi".data)⟩)]⟩ ("f".data)).2.edits
      = [(("f".data), ⟨[], ("create".data), [], ("hi".data)⟩)] ∧
    (handle_undo_edit
        ⟨[(("f".data), ("hi".data))],
         [(("f".data), ⟨[], ("create".data), [], ("hi".data)⟩)]⟩ ("f".data)).1
      ≠ noHistoryMsg ("f".data) :=
  undo_edit_keeps_record
    ⟨[(("f".data), ("hi".data))],
     [(("f".data), ⟨[], ("create".data), [], ("hi".data)⟩)]⟩ ("f".data)
    ⟨[], ("create".data), [], ("hi".data)⟩ (by decide)

/-- Counterexample to claim C8 as stated: with a budget too small to hold
the truncation note (`truncate_text("abcdef", 5)`), the result is the note
alone, whose length exceeds the budget. -/
theorem truncate_text_small_budget_cex :
    ¬ ((truncate_text ("abcdef".data) 5 true).length ≤ 5) := by decide

/-- Claim C8, amended: whenever the truncation note fits inside the budget
(`len(note) ≤ N`), `truncate_text(s, N)` returns a string of length `≤ N`;
and whenever `len(s) ≤ N` the result equals `s` exactly.  For budgets
smaller than the note the result can exceed `N`. -/
theorem truncate_text_bounded (s : PyStr) (N : Int)
    (hfit : ((noteFor N s.length).length : Int) ≤ N) :
    ((truncate_text s N true).length : Int) ≤ N ∧
      ((s.length : Int) ≤ N → truncate_text s N true = s) := by
  by_cases h : (s.length : Int) ≤ N
  · refine ⟨?_, fun _ => ?_⟩
    · rw [truncate_text, if_pos h]
      exact h
    · rw [truncate_text, if_pos h]
  · refine ⟨?_, fun hc => absurd hc h⟩
    rw [truncate_text, if_neg h]
    simp only [eq_self_iff_true, if_true]
    have hL0 : (0 : Int) ≤ ((noteFor N s.length).length : Int) :=
      Int.ofNat_nonneg _
    have hNL : (0 : Int) ≤ N - ((noteFor N s.length).length : Int) := by
      omega
    rw [List.length_append]
    have h1 : ((pySliceTo (pySliceTo s N)
        (N - ((noteFor N s.length).length : Int))).length : Int)
        ≤ N - ((noteFor N s.length).length : Int) := by
      rw [pySliceTo, if_neg (not_lt.mpr hNL), List.length_take]
      calc ((min (N - ((noteFor N s.length).length : Int)).toNat
              (pySliceTo s N).length : Nat) : Int)
          ≤ ((N - ((noteFor N s.length).length : Int)).toNat : Int) := by
            exact_mod_cast Nat.min_le_left _ _
        _ = N - ((noteFor N s.length).length : Int) :=
            Int.toNat_of_nonneg hNL
    push_cast
    push_cast at h1
    omega

set_option maxRecDepth 8000 in
/-- Witness for C8 at a concrete input (a 100-character string truncated to
80 characters, where the note fits). -/
theorem truncate_text_bounded_w :
    ((truncate_text (List.replicate 100 'a') 80 true).length : Int) ≤ 80 ∧
      (((List.replicate 100 'a').length : Int) ≤ 80 →
        truncate_text (List.replicate 100 'a') 80 true
          = List.replicate 100 'a') :=
  truncate_text_bounded (List.replicate 100 'a') 80 (by decide)

/-! ### Search caps (C9) -/

theorem totalMatches_cons {α β : Type} (f : α) (ms : List β)
    (rest : List (α × List β)) :
    totalMatches ((f, ms) :: rest) = ms.length + totalMatches rest := by
  simp [totalMatches]

theorem lcmLoop_mem_le {α β : Type} (maxT maxP : Nat) :
    ∀ (l : List (α × List β)) (t : Nat) (e : α × List β),
      e ∈ lcmLoop maxT maxP l t → e.2.length ≤ maxP := by
  intro l
  induction l with
  | nil => intro t e he; simp [lcmLoop] at he
  | cons hd rest ih =>
    obtain ⟨f, ms⟩ := hd
    intro t e he
    simp only [lcmLoop] at he
    rcases List.mem_cons.mp he with he1 | he2
    · subst he1
      show (ms.take maxP).length ≤ maxP
      rw [List.length_take]
      exact min_le_left _ _
    · by_cases hstop : maxT ≤ t + (ms.take maxP).length
      · rw [if_pos hstop] at he2
        simp at he2
      · rw [if_neg hstop] at he2
        exact ih _ e he2

theorem lcmLoop_total_le {α β : Type} (maxT maxP : Nat) :
    ∀ (l : List (α × List β)) (t : Nat), t = 0 ∨ t < maxT →
      totalMatches (lcmLoop maxT maxP l t) + t ≤ maxT - 1 + maxP := by
  intro l
  induction l with
  | nil =>
    intro t ht
    simp only [lcmLoop, totalMatches, List.map_nil, List.sum_nil]
    omega
  | cons hd rest ih =>
    obtain ⟨f, ms⟩ := hd
    intro t ht
    have hfm : (ms.take maxP).length ≤ maxP := by
      rw [List.length_take]; exact min_le_left _ _
    simp only [lcmLoop]
    by_cases hstop : maxT ≤ t + (ms.take maxP).length
    · rw [if_pos hstop, totalMatches_cons]
      simp only [totalMatches, List.map_nil, List.sum_nil]
      omega
    · rw [if_neg hstop, totalMatches_cons]
      have := ih (t + (ms.take maxP).length) (Or.inr (by omega))
      omega

theorem searchLoop_eq_lcm (fs : FS) (query : PyStr) (case_sensitive : Bool)
    (maxResults maxPerFile : Nat) :
    ∀ (files : List PyStr) (acc : List (PyStr × List ContentMatch))
      (total : Nat),
      ∃ l, searchLoop fs query case_sensitive maxResults maxPerFile
          files acc total = limit_content_matches l maxResults maxPerFile := by
  intro files
  induction files with
  | nil => intro acc total; exact ⟨acc, rfl⟩
  | cons f rest ih =>
    intro acc total
    simp only [searchLoop]
    cases hlk : assocLookup fs f with
    | none => exact ih acc total
    | some c =>
      dsimp only
      by_cases h1 : 1048576 < c.length
      · rw [if_pos h1]; exact ih acc total
      · rw [if_neg h1]
        by_cases h2 : '\x00' ∈ c.take 1024
        · rw [if_pos h2]; exact ih acc total
        · rw [if_neg h2]
          by_cases h3 : (search_file_content query c case_sensitive).isEmpty
          · rw [if_pos h3]; exact ih acc total
          · rw [if_neg h3]
            by_cases h4 : maxResults ≤ total +
                ((search_file_content query c case_sensitive).take
                  maxPerFile).length
            · rw [if_pos h4]
              exact ⟨acc ++ [(f, (search_file_content query c
                case_sensitive).take maxPerFile)], rfl⟩
            · rw [if_neg h4]
              exact ih _ _

/-- Counterexample to claim C9 as stated: with a global budget of 1 and a
per-file cap of 2, a single file with two matching lines yields two matches
in the returned mapping — the total exceeds `maxResults`. -/
theorem search_total_budget_cex :
    totalMatches (search_content_in_files [(("f".data), ("x\nx\n".data))]
        [("f".data)] ("x".data) true 1 2) = 2 ∧
      ¬ (totalMatches (search_content_in_files [(("f".data), ("x\nx\n".data))]
        [("f".data)] ("x".data) true 1 2) ≤ 1) := by
  refine ⟨by decide, by decide⟩

/-- Claim C9, amended: each file in the returned mapping carries at most
`maxPerFile` matches, and the total is bounded by
`maxResults - 1 + maxPerFile` — accumulation stops with the file that
reaches the global budget, so the total can overshoot `maxResults` by up to
`maxPerFile - 1`. -/
theorem search_caps_bounded (fs : FS) (allFiles : List PyStr) (query : PyStr)
    (case_sensitive : Bool) (maxResults maxPerFile : Nat) :
    (∀ e ∈ search_content_in_files fs allFiles query case_sensitive
        maxResults maxPerFile, e.2.length ≤ maxPerFile) ∧
      totalMatches (search_content_in_files fs allFiles query case_sensitive
        maxResults maxPerFile) ≤ maxResults - 1 + maxPerFile := by
  obtain ⟨l, hl⟩ := searchLoop_eq_lcm fs query case_sensitive maxResults
    maxPerFile allFiles [] 0
  rw [search_content_in_files, hl]
  constructor
  · intro e he
    exact lcmLoop_mem_le maxResults maxPerFile l 0 e he
  · have := lcmLoop_total_le maxResults maxPerFile l 0 (Or.inl rfl)
    simpa [limit_content_matches] using this

/-! ### Structure of `splitSlash`, `pyIntercalate`, `normComps` -/

theorem splitSlash_ne_nil (p : PyStr) : splitSlash p ≠ [] := by
  cases p with
  | nil => simp [splitSlash]
  | cons c t =>
    unfold splitSlash
    by_cases hc : c = '/'
    · simp [hc]
    · rw [if_neg hc]
      cases h : splitSlash t with
      | nil => simp
      | cons a r => simp

theorem splitSlash_append_cons (xs ys : PyStr) :
    splitSlash (xs ++ '/' :: ys) = splitSlash xs ++ splitSlash ys := by
  induction xs with
  | nil => simp [splitSlash]
  | cons c t ih =>
    rw [List.cons_append]
    by_cases hc : c = '/'
    · subst hc
      show [] :: splitSlash (t ++ '/' :: ys) = ([] :: splitSlash t) ++ splitSlash ys
      rw [ih, List.cons_append]
    · cases h : splitSlash t with
      | nil => exact absurd h (splitSlash_ne_nil t)
      | cons a r =>
        have h2 : splitSlash (t ++ '/' :: ys) = a :: (r ++ splitSlash ys) := by
          rw [ih, h, List.cons_append]
        simp [splitSlash, hc, h, h2]

theorem splitSlash_no_slash {xs : PyStr} (h : '/' ∉ xs) : splitSlash xs = [xs] := by
  induction xs with
  | nil => rfl
  | cons c t ih =>
    have hc : c ≠ '/' := fun he => h (by simp [he])
    have ht : '/' ∉ t := fun hm => h (List.mem_cons_of_mem _ hm)
    unfold splitSlash
    rw [if_neg hc, ih ht]

theorem mem_splitSlash_no_slash (p : PyStr) : ∀ c ∈ splitSlash p, '/' ∉ c := by
  induction p with
  | nil =>
    intro c hc
    simp only [splitSlash, List.mem_singleton] at hc
    simp [hc]
  | cons a t ih =>
    intro c hc
    unfold splitSlash at hc
    by_cases ha : a = '/'
    · rw [if_pos ha] at hc
      rcases List.mem_cons.mp hc with h1 | h2
      · simp [h1]
      · exact ih c h2
    · rw [if_neg ha] at hc
      cases h : splitSlash t with
      | nil => exact absurd h (splitSlash_ne_nil t)
      | cons b r =>
        rw [h] at hc
        rcases List.mem_cons.mp hc with h1 | h2
        · subst h1
          intro hm
          rcases List.mem_cons.mp hm with h3 | h4
          · exact ha h3.symm
          · exact ih b (by rw [h]; exact List.mem_cons_self _ _) h4
        · exact ih c (by rw [h]; exact List.mem_cons_of_mem _ h2)

theorem splitSlash_intercalate : ∀ (cs : List PyStr), cs ≠ [] →
    (∀ c ∈ cs, '/' ∉ c) → splitSlash (pyIntercalate cs) = cs
  | [], h, _ => absurd rfl h
  | [x], _, hx => by
    show splitSlash (pyIntercalate [x]) = [x]
    have : pyIntercalate [x] = x := rfl
    rw [this, splitSlash_no_slash (hx x (by simp))]
  | x :: y :: rest, _, hx => by
    have ih := splitSlash_intercalate (y :: rest) (by simp)
      (fun c hc => hx c (List.mem_cons_of_mem _ hc))
    show splitSlash (x ++ '/' :: pyIntercalate (y :: rest)) = x :: y :: rest
    rw [splitSlash_append_cons, splitSlash_no_slash (hx x (by simp)), ih]
    rfl

theorem normComps_props : ∀ (l acc : List PyStr),
    (∀ c ∈ acc, c ≠ [] ∧ c ≠ ['.'] ∧ c ≠ dotdot ∧ '/' ∉ c) →
    (∀ c ∈ l, '/' ∉ c) →
    ∀ c ∈ normComps true l acc, c ≠ [] ∧ c ≠ ['.'] ∧ c ≠ dotdot ∧ '/' ∉ c := by
  intro l
  induction l with
  | nil => intro acc hacc _ c hc; exact hacc c hc
  | cons d rest ih =>
    intro acc hacc hl c hc
    unfold normComps at hc
    by_cases h1 : d = [] ∨ d = ['.']
    · rw [if_pos h1] at hc
      exact ih acc hacc (fun e he => hl e (List.mem_cons_of_mem _ he)) c hc
    · rw [if_neg h1] at hc
      by_cases h2 : d ≠ dotdot ∨ (¬(true : Bool) ∧ acc = []) ∨
          acc.getLast? = some dotdot
      · rw [if_pos h2] at hc
        have hd : d ≠ dotdot := by
          rcases h2 with h | h | h
          · exact h
          · exact absurd h.1 (by simp)
          · exfalso
            obtain ⟨t, ht⟩ := getLast?_eq_some_append h
            have hmem : dotdot ∈ acc := by rw [ht]; simp
            exact (hacc dotdot hmem).2.2.1 rfl
        refine ih _ ?_ (fun e he => hl e (List.mem_cons_of_mem _ he)) c hc
        intro e he
        rcases List.mem_append.mp he with he1 | he2
        · exact hacc e he1
        · have hed : e = d := by simpa using he2
          subst hed
          push_neg at h1
          exact ⟨h1.1, h1.2, hd, hl e (List.mem_cons_self _ _)⟩
      · rw [if_neg h2] at hc
        by_cases h3 : acc ≠ []
        · rw [if_pos h3] at hc
          refine ih _ ?_ (fun e he => hl e (List.mem_cons_of_mem _ he)) c hc
          intro e he
          exact hacc e (List.dropLast_subset _ he)
        · rw [if_neg h3] at hc
          exact ih acc hacc (fun e he => hl e (List.mem_cons_of_mem _ he)) c hc

theorem normComps_replicate_empty (b : Bool) :
    ∀ (k : Nat) (l acc : List PyStr),
      normComps b (List.replicate k [] ++ l) acc = normComps b l acc := by
  intro k
  induction k with
  | zero => intro l acc; rfl
  | succ n ih =>
    intro l acc
    rw [List.replicate_succ, List.cons_append]
    have h1 : normComps b ([] :: (List.replicate n [] ++ l)) acc
        = normComps b (List.replicate n [] ++ l) acc := by
      simp [normComps]
    rw [h1]
    exact ih l acc

theorem normComps_clean_id : ∀ (l acc : List PyStr),
    (∀ c ∈ l, c ≠ [] ∧ c ≠ ['.'] ∧ c ≠ dotdot) →
    normComps true l acc = acc ++ l := by
  intro l
  induction l with
  | nil => intro acc _; simp [normComps]
  | cons d rest ih =>
    intro acc hl
    obtain ⟨hd1, hd2, hd3⟩ := hl d (List.mem_cons_self _ _)
    unfold normComps
    rw [if_neg (by simp [hd1, hd2]), if_pos (Or.inl hd3),
      ih (acc ++ [d]) (fun e he => hl e (List.mem_cons_of_mem _ he))]
    simp

theorem initialSlashes_pos {p : PyStr} (h : isabs p = true) :
    1 ≤ initialSlashes p ∧ initialSlashes p ≤ 2 := by
  unfold initialSlashes
  rw [if_pos h]
  split <;> omega

theorem normpath_abs_eq {p : PyStr} (h : isabs p = true) :
    normpath p = List.replicate (initialSlashes p) '/' ++
      pyIntercalate (normComps true (splitSlash p) []) := by
  have hne : ¬ p = [] := by
    intro he; rw [he] at h; simp [isabs] at h
  have hk : 1 ≤ initialSlashes p := (initialSlashes_pos h).1
  have hd : decide (initialSlashes p ≠ 0) = true := decide_eq_true (by omega)
  have hres : List.replicate (initialSlashes p) '/' ++
      pyIntercalate (normComps true (splitSlash p) []) ≠ [] := by
    cases hk0 : initialSlashes p with
    | zero => rw [hk0] at hk; omega
    | succ n => simp [List.replicate_succ]
  simp only [normpath, if_neg hne, hd, if_neg hres]

theorem isabs_normpath {p : PyStr} (h : isabs p = true) :
    isabs (normpath p) = true := by
  rw [normpath_abs_eq h]
  have hk : 1 ≤ initialSlashes p := (initialSlashes_pos h).1
  cases hk0 : initialSlashes p with
  | zero => rw [hk0] at hk; omega
  | succ n => simp [List.replicate_succ, isabs]

theorem normComps_splitSlash_props (p : PyStr) :
    ∀ c ∈ normComps true (splitSlash p) [],
      c ≠ [] ∧ c ≠ ['.'] ∧ c ≠ dotdot ∧ '/' ∉ c :=
  normComps_props (splitSlash p) [] (by simp) (mem_splitSlash_no_slash p)

theorem splitSlash_replicate_append : ∀ (k : Nat) (x : PyStr),
    splitSlash (List.replicate k '/' ++ x)
      = List.replicate k [] ++ splitSlash x := by
  intro k
  induction k with
  | zero => intro x; simp
  | succ n ih =>
    intro x
    rw [List.replicate_succ, List.cons_append, List.replicate_succ,
      List.cons_append]
    have h1 : splitSlash ('/' :: (List.replicate n '/' ++ x))
        = [] :: splitSlash (List.replicate n '/' ++ x) := by
      simp [splitSlash]
    rw [h1, ih]

theorem comps_normpath_abs {p : PyStr} (h : isabs p = true) :
    comps (normpath p) = normComps true (splitSlash p) [] := by
  rw [normpath_abs_eq h]
  unfold comps filterNE
  rw [splitSlash_replicate_append, List.filter_append]
  have h1 : (List.replicate (initialSlashes p) ([] : PyStr)).filter
      (fun c => decide (c ≠ [])) = [] := by
    apply List.filter_eq_nil_iff.mpr
    intro a ha
    simp [List.eq_of_mem_replicate ha]
  rw [h1, List.nil_append]
  cases hnc : normComps true (splitSlash p) [] with
  | nil =>
    show (splitSlash (pyIntercalate [])).filter (fun c => decide (c ≠ [])) = []
    simp [pyIntercalate, splitSlash]
  | cons a r =>
    have hprops := normComps_splitSlash_props p
    rw [← hnc]
    rw [splitSlash_intercalate _ (by rw [hnc]; simp)
      (fun c hc => (hprops c hc).2.2.2)]
    apply List.filter_eq_self.mpr
    intro c hc
    exact decide_eq_true (hprops c hc).1

theorem dotdot_not_mem_splitSlash_normpath {p : PyStr} (h : isabs p = true) :
    dotdot ∉ splitSlash (normpath p) := by
  rw [normpath_abs_eq h, splitSlash_replicate_append]
  intro hm
  rcases List.mem_append.mp hm with h1 | h2
  · have := List.eq_of_mem_replicate h1
    simp [dotdot] at this
  · cases hnc : normComps true (splitSlash p) [] with
    | nil =>
      rw [hnc] at h2
      show False
      have : splitSlash (pyIntercalate ([] : List PyStr)) = [[]] := by
        simp [pyIntercalate, splitSlash]
      rw [this] at h2
      simp [dotdot] at h2
    | cons a r =>
      rw [hnc] at h2
      rw [← hnc] at h2
      rw [splitSlash_intercalate _ (by rw [hnc]; simp)
        (fun c hc => ((normComps_splitSlash_props p) c hc).2.2.2)] at h2
      exact ((normComps_splitSlash_props p) dotdot h2).2.2.1 rfl

theorem pyIntercalate_cons_eq (a : PyStr) (r : List PyStr) :
    ∃ X, pyIntercalate (a :: r) = a ++ X := by
  cases r with
  | nil => exact ⟨[], by simp [pyIntercalate]⟩
  | cons b r' => exact ⟨'/' :: pyIntercalate (b :: r'), rfl⟩

theorem initialSlashes_normpath {p : PyStr} (h : isabs p = true) :
    initialSlashes (normpath p) = initialSlashes p := by
  obtain ⟨hk1, hk2⟩ := initialSlashes_pos h
  rw [normpath_abs_eq h]
  cases hnc : normComps true (splitSlash p) [] with
  | nil =>
    rw [show pyIntercalate ([] : List PyStr) = [] from rfl, List.append_nil]
    rcases (show initialSlashes p = 1 ∨ initialSlashes p = 2 by omega) with
      hk | hk <;> rw [hk] <;> decide
  | cons a r =>
    obtain ⟨X, hX⟩ := pyIntercalate_cons_eq a r
    have ha := normComps_splitSlash_props p a
      (by rw [hnc]; exact List.mem_cons_self _ _)
    obtain ⟨c0, a', hc0⟩ : ∃ c0 a', a = c0 :: a' := by
      cases a with
      | nil => exact absurd rfl ha.1
      | cons c0 a' => exact ⟨c0, a', rfl⟩
    have hc0s : c0 ≠ '/' := by
      intro he
      exact ha.2.2.2 (by rw [hc0, he]; exact List.mem_cons_self _ _)
    rw [hX, hc0]
    rcases (show initialSlashes p = 1 ∨ initialSlashes p = 2 by omega) with
      hk | hk <;> rw [hk]
    · show initialSlashes ('/' :: (c0 :: a' ++ X)) = 1
      unfold initialSlashes
      rw [if_pos (by simp [isabs])]
      rw [if_neg (by simp [hc0s])]
    · show initialSlashes ('/' :: '/' :: (c0 :: a' ++ X)) = 2
      unfold initialSlashes
      rw [if_pos (by simp [isabs])]
      rw [if_pos (by simp [hc0s])]

theorem normpath_idem_abs {p : PyStr} (h : isabs p = true) :
    normpath (normpath p) = normpath p := by
  have hab : isabs (normpath p) = true := isabs_normpath h
  rw [normpath_abs_eq hab, initialSlashes_normpath h]
  have hcs : normComps true (splitSlash (normpath p)) []
      = normComps true (splitSlash p) [] := by
    rw [normpath_abs_eq h, splitSlash_replicate_append,
      normComps_replicate_empty]
    cases hnc : normComps true (splitSlash p) [] with
    | nil =>
      show normComps true (splitSlash (pyIntercalate [])) [] = []
      decide
    | cons a r =>
      rw [← hnc]
      rw [splitSlash_intercalate _ (by rw [hnc]; simp)
        (fun c hc => ((normComps_splitSlash_props p) c hc).2.2.2)]
      rw [normComps_clean_id _ []
        (fun c hc => ⟨((normComps_splitSlash_props p) c hc).1,
          ((normComps_splitSlash_props p) c hc).2.1,
          ((normComps_splitSlash_props p) c hc).2.2.1⟩)]
      simp
  rw [hcs, ← normpath_abs_eq h]

/-! ### `relpath`, `dirname`, `pyJoin` facts -/

theorem commonPrefixLen_le_left : ∀ (a b : List PyStr),
    commonPrefixLen a b ≤ a.length
  | [], _ => Nat.le_refl 0
  | _ :: _, [] => Nat.zero_le _
  | a :: as, b :: bs => by
    unfold commonPrefixLen
    by_cases h : a = b
    · rw [if_pos h]
      simpa using commonPrefixLen_le_left as bs
    · rw [if_neg h]
      exact Nat.zero_le _

theorem commonPrefixLen_take_eq : ∀ (a b : List PyStr),
    a.take (commonPrefixLen a b) = b.take (commonPrefixLen a b)
  | [], b => by
    have h0 : commonPrefixLen [] b = 0 := rfl
    rw [h0]
    simp
  | a :: as, [] => by
    show (a :: as).take (commonPrefixLen (a :: as) []) = _
    unfold commonPrefixLen
    simp
  | a :: as, b :: bs => by
    unfold commonPrefixLen
    by_cases h : a = b
    · rw [if_pos h]
      simp only [List.take_succ_cons]
      rw [h, commonPrefixLen_take_eq as bs]
    · rw [if_neg h]
      simp

theorem isPrefixOf_iff : ∀ (a b : PyStr), a.isPrefixOf b = true ↔ a <+: b
  | [], b => by
    constructor
    · intro _; exact ⟨b, rfl⟩
    · intro _; simp [List.isPrefixOf]
  | a :: as, [] => by
    constructor
    · intro h; simp [List.isPrefixOf] at h
    · rintro ⟨t, ht⟩; simp at ht
  | a :: as, b :: bs => by
    simp only [List.isPrefixOf, Bool.and_eq_true, beq_iff_eq]
    rw [isPrefixOf_iff as bs]
    constructor
    · rintro ⟨he, t, ht⟩
      subst he
      exact ⟨t, by rw [List.cons_append, ht]⟩
    · rintro ⟨t, ht⟩
      rw [List.cons_append] at ht
      injection ht with h1 h2
      exact ⟨h1, t, h2⟩

theorem foldl_pyJoin_keeps : ∀ (rest : List PyStr) (x : PyStr),
    (∀ c ∈ rest, c.head? ≠ some '/') → ∃ t, rest.foldl pyJoin x = x ++ t := by
  intro rest
  induction rest with
  | nil => intro x _; exact ⟨[], (List.append_nil x).symm⟩
  | cons c r ih =>
    intro x hc
    have hnabs : isabs c = false := by
      unfold isabs
      exact decide_eq_false (hc c (List.mem_cons_self _ _))
    have hjoin : ∃ u, pyJoin x c = x ++ u := by
      unfold pyJoin
      rw [if_neg (show ¬ (isabs c = true) by simp [hnabs])]
      by_cases h2 : x = [] ∨ x.getLast? = some '/'
      · rw [if_pos h2]; exact ⟨c, rfl⟩
      · rw [if_neg h2]; exact ⟨'/' :: c, rfl⟩
    obtain ⟨u, hu⟩ := hjoin
    obtain ⟨t2, ht2⟩ := ih (pyJoin x c)
      (fun e he => hc e (List.mem_cons_of_mem _ he))
    refine ⟨u ++ t2, ?_⟩
    rw [List.foldl_cons, ht2, hu, List.append_assoc]

theorem relpath_not_dotdot {cwd a b : PyStr}
    (hia : normpath a = a) (hib : normpath b = b)
    (ha : isabs a = true) (hb : isabs b = true)
    (h : dotdot.isPrefixOf (relpath cwd a b) = false) :
    comps b <+: comps a := by
  simp only [relpath] at h
  rw [show pyAbspath cwd a = a by rw [pyAbspath, if_pos ha, hia],
    show pyAbspath cwd b = b by rw [pyAbspath, if_pos hb, hib]] at h
  by_cases hk : (filterNE (splitSlash b)).length -
      commonPrefixLen (filterNE (splitSlash b)) (filterNE (splitSlash a)) = 0
  · have hle := commonPrefixLen_le_left (filterNE (splitSlash b))
      (filterNE (splitSlash a))
    have hieq : commonPrefixLen (filterNE (splitSlash b))
        (filterNE (splitSlash a)) = (filterNE (splitSlash b)).length := by
      omega
    have htake := commonPrefixLen_take_eq (filterNE (splitSlash b))
      (filterNE (splitSlash a))
    rw [hieq, List.take_length] at htake
    show filterNE (splitSlash b) <+: filterNE (splitSlash a)
    rw [htake, ← hieq]
    exact ⟨(filterNE (splitSlash a)).drop _, List.take_append_drop _ _⟩
  · exfalso
    obtain ⟨n, hn⟩ : ∃ n, (filterNE (splitSlash b)).length -
        commonPrefixLen (filterNE (splitSlash b)) (filterNE (splitSlash a))
          = n + 1 :=
      ⟨(filterNE (splitSlash b)).length -
        commonPrefixLen (filterNE (splitSlash b)) (filterNE (splitSlash a))
          - 1, by omega⟩
    rw [hn, List.replicate_succ, List.cons_append] at h
    rw [if_neg (by simp)] at h
    simp only [joinList] at h
    have hheads : ∀ e ∈ List.replicate n dotdot ++
        (filterNE (splitSlash a)).drop
          (commonPrefixLen (filterNE (splitSlash b))
            (filterNE (splitSlash a))),
        e.head? ≠ some '/' := by
      intro e he
      rcases List.mem_append.mp he with h1 | h2
      · rw [List.eq_of_mem_replicate h1]
        simp [dotdot]
      · have hmem : e ∈ splitSlash a := by
          have := List.drop_subset _ _ h2
          exact List.mem_of_mem_filter this
        have hns : '/' ∉ e := mem_splitSlash_no_slash a e hmem
        cases e with
        | nil => simp
        | cons d t' =>
          have : d ≠ '/' :=
            fun hd => hns (by rw [hd]; exact List.mem_cons_self _ _)
          simp [this]
    obtain ⟨t, ht⟩ := foldl_pyJoin_keeps
      (List.replicate n dotdot ++ (filterNE (splitSlash a)).drop
        (commonPrefixLen (filterNE (splitSlash b)) (filterNE (splitSlash a))))
      dotdot hheads
    rw [ht] at h
    have : dotdot.isPrefixOf (dotdot ++ t) = true :=
      (isPrefixOf_iff _ _).mpr ⟨t, rfl⟩
    rw [this] at h
    exact Bool.noConfusion h

theorem comps_append_cons (a b : PyStr) :
    comps (a ++ '/' :: b) = comps a ++ comps b := by
  unfold comps filterNE
  rw [splitSlash_append_cons, List.filter_append]

theorem isabs_pyJoin (a b : PyStr) (h : isabs a = true) :
    isabs (pyJoin a b) = true := by
  unfold pyJoin
  by_cases h1 : isabs b
  · rw [if_pos h1]; exact h1
  · rw [if_neg h1]
    have hne : a ≠ [] := by
      intro he; rw [he] at h; simp [isabs] at h
    by_cases h2 : a = [] ∨ a.getLast? = some '/'
    · rw [if_pos h2]
      cases a with
      | nil => exact absurd rfl hne
      | cons c t => simpa [isabs] using h
    · rw [if_neg h2]
      cases a with
      | nil => exact absurd rfl hne
      | cons c t => simpa [isabs] using h

theorem normOf_exists (v : PathValidator) (p : PyStr) :
    ∃ q, normOf v p = normpath q ∧
      (isabs v.repo_path = true → isabs q = true) := by
  simp only [normOf]
  by_cases h2 : isabs (if isabs p = true then
      (if 1 < p.length then p.drop 1 else ['.']) else p)
  · refine ⟨_, ?_, fun _ => h2⟩
    rw [if_pos h2]
  · refine ⟨pyJoin v.repo_path (if isabs p = true then
        (if 1 < p.length then p.drop 1 else ['.']) else p), ?_,
      fun hr => isabs_pyJoin _ _ hr⟩
    rw [if_neg h2]

theorem isabs_normOf (v : PathValidator) (p : PyStr)
    (h : isabs v.repo_path = true) : isabs (normOf v p) = true := by
  obtain ⟨q, hq, habs⟩ := normOf_exists v p
  rw [hq]
  exact isabs_normpath (habs h)

theorem normOf_idem (v : PathValidator) (p : PyStr)
    (h : isabs v.repo_path = true) : normpath (normOf v p) = normOf v p := by
  obtain ⟨q, hq, habs⟩ := normOf_exists v p
  rw [hq]
  exact normpath_idem_abs (habs h)

theorem normOf_no_dotdot (v : PathValidator) (p : PyStr)
    (h : isabs v.repo_path = true) : dotdot ∉ splitSlash (normOf v p) := by
  obtain ⟨q, hq, habs⟩ := normOf_exists v p
  rw [hq]
  exact dotdot_not_mem_splitSlash_normpath (habs h)

theorem rstripSlash_split (s : PyStr) :
    s = rstripSlash s ++ (s.reverse.takeWhile (· = '/')).reverse := by
  have h0 : s.reverse.takeWhile (· = '/') ++ s.reverse.dropWhile (· = '/')
      = s.reverse := List.takeWhile_append_dropWhile _ _
  have h1 := congrArg List.reverse h0
  rw [List.reverse_append, List.reverse_reverse] at h1
  rw [rstripSlash]
  exact h1.symm

theorem rstripSlash_head (s : PyStr) (hs : ∃ t0, s = '/' :: t0)
    (hns : s ≠ List.replicate s.length '/') :
    ∃ u, rstripSlash s = '/' :: u := by
  have hsplit := rstripSlash_split s
  cases hr : rstripSlash s with
  | nil =>
    exfalso
    rw [hr, List.nil_append] at hsplit
    apply hns
    apply List.eq_replicate_length.mpr
    intro b hb
    rw [hsplit] at hb
    have hb2 := List.mem_reverse.mp hb
    have hb3 := List.mem_takeWhile_imp hb2
    simpa using hb3
  | cons d u =>
    obtain ⟨t0, ht0⟩ := hs
    rw [hr] at hsplit
    rw [ht0, List.cons_append] at hsplit
    injection hsplit with h1 h2
    exact ⟨u, by rw [← h1]⟩

theorem dirname_abs {p : PyStr} (h : isabs p = true) :
    dirname p ≠ [] ∧ dirname p ≠ ['.'] := by
  cases p with
  | nil => simp [isabs] at h
  | cons c t =>
    have hc : c = '/' := by simpa [isabs] using h
    subst hc
    obtain ⟨i, hi⟩ : ∃ i, lastSlashIdx ('/' :: t) = some i := by
      unfold lastSlashIdx
      cases hlt : lastSlashIdx t with
      | some j => exact ⟨j + 1, rfl⟩
      | none => exact ⟨0, by simp⟩
    simp only [dirname, hi]
    have hhead : ('/' :: t).take (i + 1) = '/' :: t.take i := rfl
    by_cases hcond : ('/' :: t).take (i + 1) ≠ [] ∧
        ('/' :: t).take (i + 1)
          ≠ List.replicate (('/' :: t).take (i + 1)).length '/'
    · rw [if_pos hcond]
      obtain ⟨u, hu⟩ := rstripSlash_head (('/' :: t).take (i + 1))
        ⟨t.take i, hhead⟩ hcond.2
      rw [hu]
      exact ⟨by simp, by simp⟩
    · rw [if_neg hcond]
      rw [hhead]
      exact ⟨by simp, by simp⟩

theorem isabs_resolveAllowed (repo af : PyStr) (h : isabs repo = true) :
    isabs (resolveAllowed repo af) = true := by
  unfold resolveAllowed
  by_cases h1 : isabs af
  · rw [if_pos h1]; exact isabs_normpath h1
  · rw [if_neg h1]; exact isabs_normpath (isabs_pyJoin _ _ h)

theorem normpath_resolveAllowed (repo af : PyStr) (h : isabs repo = true) :
    normpath (resolveAllowed repo af) = resolveAllowed repo af := by
  unfold resolveAllowed
  by_cases h1 : isabs af
  · rw [if_pos h1]; exact normpath_idem_abs h1
  · rw [if_neg h1]; exact normpath_idem_abs (isabs_pyJoin _ _ h)

/-- Claim C2: whenever the normalized path still contains a parent-traversal
segment, `validate_path` fails with the path-traversal message (not the
ignored or not-allowed one).  With an absolute `repo_path` — which the
constructor's `os.path.abspath` guarantees — normalization removes every
`..`, so this check fires only for validator states with a relative
`repo_path` (see `normOf_no_dotdot`). -/
theorem validate_path_traversal_error (cwd : PyStr) (v : PathValidator)
    (p : PyStr) (h : dotdot ∈ splitSlash (normOf v p)) :
    validate_path cwd v p
      = (false, ("Path traversal not allowed: ".data) ++ p) := by
  simp only [validate_path]
  rw [if_pos h]

/-- Witness for C2: a traversal that survives normalization. -/
theorem validate_path_traversal_error_w :
    validate_path ("/c".data) ⟨("r".data), [], []⟩ ("../../x".data)
      = (false, ("Path traversal not allowed: ".data) ++ ("../../x".data)) :=
  validate_path_traversal_error ("/c".data) ⟨("r".data), [], []⟩ ("../../x".data)
    (by decide)

/-- Counterexample to claim C3 as stated: the pattern `src/*` matches the
repo-relative path `src/a.txt` of the file (and the claim then demands an
IgnoredError), but `validate_path` succeeds — the code matches patterns
against the absolute normalized path `/repo/src/a.txt` and its prefixes,
none of which `src/*` matches. -/
theorem ignore_relative_matching_cex :
    specIgnoredRelative ("/c".data) ⟨("/repo".data), [("src/*".data)], []⟩
        ("src/a.txt".data) = true ∧
      validate_path ("/c".data) ⟨("/repo".data), [("src/*".data)], []⟩
        ("src/a.txt".data) = (true, ("/repo/src/a.txt".data)) := by
  refine ⟨by decide, by decide⟩

/-- Claim C3, amended: patterns are matched against the absolute normalized
path and against the join of each prefix of its `pathlib` parts — not
against the repo-relative path.  Whenever `is_path_ignored` holds of the
normalized path (in particular when only an ancestor prefix matches a
pattern), `validate_path` fails with the IgnoredError message, given an
absolute `repo_path` as the constructor guarantees. -/
theorem is_path_ignored_blocks_validate (cwd : PyStr) (v : PathValidator)
    (p : PyStr) (habs : isabs v.repo_path = true)
    (hig : is_path_ignored v (normOf v p) = true) :
    validate_path cwd v p
      = (false, ("Path is ignored by .toolignore: ".data) ++ normOf v p) := by
  simp only [validate_path]
  rw [if_neg (normOf_no_dotdot v p habs), if_pos hig]

/-- Witness for C3 (amended) at a concrete input where only an ancestor
directory of the path matches the pattern. -/
theorem is_path_ignored_blocks_validate_w :
    validate_path ("/c".data) ⟨("/repo".data), [("/repo/src".data)], []⟩
        ("src/a.txt".data)
      = (false, ("Path is ignored by .toolignore: ".data) ++
          normOf ⟨("/repo".data), [("/repo/src".data)], []⟩ ("src/a.txt".data)) :=
  is_path_ignored_blocks_validate ("/c".data)
    ⟨("/repo".data), [("/repo/src".data)], []⟩ ("src/a.txt".data)
    (by decide) (by decide)

/-- Claim C1: whenever `validate_path` succeeds (with the absolute,
normalized `repo_path` the constructor guarantees), the returned path is an
absolute, normalized path that equals the repo root or is a descendant of
it, or equals or is a descendant of one of the resolved allowed folders —
descent taken on the non-empty slash-separated components. -/
theorem validate_path_sound (cwd : PyStr) (v : PathValidator) (p : PyStr)
    (habs : isabs v.repo_path = true)
    (hnf : normpath v.repo_path = v.repo_path)
    (hok : (validate_path cwd v p).1 = true) :
    isabs (validate_path cwd v p).2 = true ∧
      normpath (validate_path cwd v p).2 = (validate_path cwd v p).2 ∧
      (comps v.repo_path <+: comps (validate_path cwd v p).2 ∨
        ∃ af ∈ v.allowed_folders,
          comps (resolveAllowed v.repo_path af)
            <+: comps (validate_path cwd v p).2) := by
  have hneq : ¬ dotdot ∈ splitSlash (normOf v p) := normOf_no_dotdot v p habs
  have hidem : normpath (normOf v p) = normOf v p := normOf_idem v p habs
  have hvabs : isabs (normOf v p) = true := isabs_normOf v p habs
  have hval : validate_path cwd v p = (true, normOf v p) ∧
      is_path_allowed cwd v (normOf v p) = true := by
    simp only [validate_path] at hok ⊢
    rw [if_neg hneq] at hok ⊢
    by_cases h2 : is_path_ignored v (normOf v p) = true
    · rw [if_pos h2] at hok
      exact absurd hok (by simp)
    · rw [if_neg h2] at hok ⊢
      by_cases h3 : is_path_allowed cwd v (normOf v p) = true
      · rw [if_neg (not_not_intro h3)] at hok ⊢
        exact ⟨rfl, h3⟩
      · rw [if_pos h3] at hok
        exact absurd hok (by simp)
  obtain ⟨hveq, hallow⟩ := hval
  rw [hveq]
  refine ⟨hvabs, hidem, ?_⟩
  simp only [is_path_allowed] at hallow
  rw [hidem] at hallow
  by_cases hc1 : normOf v p = v.repo_path ∨ normOf v p = ['.']
  · left
    rcases hc1 with hc1 | hc1
    · rw [hc1]
    · exfalso
      rw [hc1] at hvabs
      simp [isabs] at hvabs
  · rw [if_neg hc1] at hallow
    have hd := dirname_abs hvabs
    have hc2 : ¬ (dirname (normOf v p) = [] ∨ dirname (normOf v p) = ['.']) := by
      rintro (h | h)
      · exact hd.1 h
      · exact hd.2 h
    rw [if_neg hc2] at hallow
    by_cases hc3 :
        ¬ (dotdot.isPrefixOf (relpath cwd (normOf v p) v.repo_path) = true)
    · left
      have hfalse : dotdot.isPrefixOf
          (relpath cwd (normOf v p) v.repo_path) = false := by
        cases hb : dotdot.isPrefixOf (relpath cwd (normOf v p) v.repo_path)
        · rfl
        · exact absurd hb hc3
      exact relpath_not_dotdot hidem hnf hvabs habs hfalse
    · rw [if_neg hc3] at hallow
      by_cases hc4 : v.allowed_folders = []
      · rw [if_pos hc4] at hallow
        exact absurd hallow (by simp)
      · rw [if_neg hc4] at hallow
        right
        obtain ⟨af, hmem, hcond⟩ := List.any_eq_true.mp hallow
        refine ⟨af, hmem, ?_⟩
        have hapabs := isabs_resolveAllowed v.repo_path af habs
        have hapidem := normpath_resolveAllowed v.repo_path af habs
        simp only [Bool.or_eq_true, decide_eq_true_eq, Bool.not_eq_true']
          at hcond
        rcases hcond with (hcc | hcc) | hcc
        · rw [hcc]
        · obtain ⟨rest, hrest⟩ := (isPrefixOf_iff _ _).mp hcc
          rw [← hrest, List.append_assoc]
          rw [show (['/'] ++ rest : PyStr) = '/' :: rest from rfl]
          rw [comps_append_cons]
          exact ⟨comps rest, rfl⟩
        · exact relpath_not_dotdot hidem hapidem hvabs hapabs hcc

set_option maxRecDepth 8000 in
/-- Witness for C1 at a concrete input (a repo-relative file, one extra
allowed folder configured). -/
theorem validate_path_sound_w :
    isabs (validate_path ("/c".data) ⟨("/repo".data), [], [("/lib".data)]⟩
        ("x/y".data)).2 = true ∧
      normpath (validate_path ("/c".data) ⟨("/repo".data), [], [("/lib".data)]⟩
          ("x/y".data)).2
        = (validate_path ("/c".data) ⟨("/repo".data), [], [("/lib".data)]⟩
            ("x/y".data)).2 ∧
      (comps (PathValidator.repo_path ⟨("/repo".data), [], [("/lib".data)]⟩) <+:
          comps (validate_path ("/c".data) ⟨("/repo".data), [], [("/lib".data)]⟩
            ("x/y".data)).2 ∨
        ∃ af ∈ PathValidator.allowed_folders
            ⟨("/repo".data), [], [("/lib".data)]⟩,
          comps (resolveAllowed
              (PathValidator.repo_path ⟨("/repo".data), [], [("/lib".data)]⟩) af)
            <+: comps (validate_path ("/c".data)
              ⟨("/repo".data), [], [("/lib".data)]⟩ ("x/y".data)).2) :=
  validate_path_sound ("/c".data) ⟨("/repo".data), [], [("/lib".data)]⟩ ("x/y".data)
    (by decide) (by decide) (by decide)
